import Mathlib

/-!
Verification of the vocal-visualizer spectral pipeline.

Shallow embedding of the repository's spectrogram code:

* `generateFullSpectrogram` (src/components/AudioAnalyzer.tsx, lines 191-238):
  offline STFT-style builder — Hamming window, naive DFT over 128 bins,
  gain 10 and clamp at 1.
* the live-capture snapshot slicing and the 200-entry rolling buffer
  (src/components/AudioAnalyzer.tsx, `updateFrequencyData`, lines 128-154).
* the percentile dynamic-range normalizer and heat-map renderer
  (src/components/Spectrogram.tsx, `canvasData`, lines 25-131).

JavaScript numbers are modelled exactly: sample and magnitude values as real
numbers, spectrogram matrix values as rationals (every IEEE-754 double is a
rational; the pipeline uses only field and order operations until the final
`Math.pow(·, 0.5)` step, which is mapped into `ℝ`).  The one place the code
can produce a non-finite double — the unguarded division
`(clampedValue - p5) / (p95 - p5)` when `p95 = p5` — is modelled by `Option`:
`none` stands for the NaN produced by `0 / 0`.
-/

namespace VocalVisualizer

/-! ## Offline spectrogram builder (`generateFullSpectrogram`) -/

/-- `const windowSize = 1024`. -/
def windowSize : ℕ := 1024

/-- `const hopSize = 256`. -/
def hopSize : ℕ := 256

/-- `const fftSize = 128` — the offline bin count. -/
def fftSize : ℕ := 128

/-- Hamming coefficient `0.54 - 0.46 * Math.cos(2 * Math.PI * j / (windowSize - 1))`. -/
noncomputable def hammingCoeff (j : ℕ) : ℝ :=
  0.54 - 0.46 * Real.cos (2 * Real.pi * (j : ℝ) / ((windowSize : ℝ) - 1))

/-- `windowedSegment[j] = segment[j] * windowValue` where
`segment = audioData.slice(i, i + windowSize)`, so `segment[j] = audioData[i + j]`
(the loop guarantees `i + windowSize < audioData.length`, so the slice is full). -/
noncomputable def windowedSegment (audio : List ℝ) (i : ℕ) : ℕ → ℝ :=
  fun j => audio.getD (i + j) 0 * hammingCoeff j

/-- `real += windowedSegment[t] * Math.cos(angle)` accumulated over `t ∈ [0, windowSize)`
with `angle = -2 * Math.PI * (f / fftSize) * t`. -/
noncomputable def dftReal (x : ℕ → ℝ) (f : ℕ) : ℝ :=
  ∑ t ∈ Finset.range windowSize,
    x t * Real.cos (-2 * Real.pi * ((f : ℝ) / (fftSize : ℝ)) * (t : ℝ))

/-- `imag += windowedSegment[t] * Math.sin(angle)` accumulated over `t ∈ [0, windowSize)`. -/
noncomputable def dftImag (x : ℕ → ℝ) (f : ℕ) : ℝ :=
  ∑ t ∈ Finset.range windowSize,
    x t * Real.sin (-2 * Real.pi * ((f : ℝ) / (fftSize : ℝ)) * (t : ℝ))

/-- `magnitude = Math.sqrt(real * real + imag * imag) / windowSize`. -/
noncomputable def binMagnitude (x : ℕ → ℝ) (f : ℕ) : ℝ :=
  Real.sqrt (dftReal x f * dftReal x f + dftImag x f * dftImag x f) / (windowSize : ℝ)

/-- One row of the spectrogram: `frequencies[f] = Math.min(1, magnitude * 10)`
for `f = 0, …, fftSize - 1`. -/
noncomputable def spectralFrame (x : ℕ → ℝ) : List ℝ :=
  (List.range fftSize).map fun f => min 1 (binMagnitude x f * 10)

/-- The frame loop `for (let i = 0; i < audioData.length - windowSize; i += hopSize)`.
The bound is computed in JavaScript integer arithmetic, which can be negative,
hence the comparison in `ℤ`.  The `await`-based yielding every 50 hops does not
change the produced value and is not modelled. -/
noncomputable def genFrames (audio : List ℝ) (i : ℕ) : List (List ℝ) :=
  if h : (i : ℤ) < (audio.length : ℤ) - (windowSize : ℤ) then
    spectralFrame (windowedSegment audio i) :: genFrames audio (i + hopSize)
  else []
termination_by audio.length - i
decreasing_by
  have hw : windowSize = 1024 := rfl
  have hh : hopSize = 256 := rfl
  omega

/-- `generateFullSpectrogram(audioData, sampleRate)`; the `sampleRate` parameter
is declared by the source function but never read by its body. -/
noncomputable def generateFullSpectrogram (audio : List ℝ) (sampleRate : ℕ) : List (List ℝ) :=
  genFrames audio 0

/-- Closed form for the number of frames the loop emits when started at offset `i`. -/
def frameCountFrom (L i : ℕ) : ℕ :=
  if L ≤ windowSize + i then 0 else (L - windowSize - i - 1) / hopSize + 1

/-- Closed form for the number of rows of the full spectrogram. -/
def numFrames (L : ℕ) : ℕ := frameCountFrom L 0

lemma frameCountFrom_step {L i : ℕ} (h : (i : ℤ) < (L : ℤ) - (windowSize : ℤ)) :
    frameCountFrom L i = frameCountFrom L (i + hopSize) + 1 := by
  have hw : windowSize = 1024 := rfl
  have hh : hopSize = 256 := rfl
  have hiL : i + windowSize < L := by omega
  unfold frameCountFrom
  rw [if_neg (by omega)]
  by_cases h2 : L ≤ windowSize + (i + hopSize)
  · rw [if_pos h2]
    have : L - windowSize - i - 1 < hopSize := by omega
    rw [Nat.div_eq_of_lt this]
  · rw [if_neg h2]
    have hA : L - windowSize - i - 1 = (L - windowSize - (i + hopSize) - 1) + hopSize := by
      omega
    rw [hA, Nat.add_div_right _ (by norm_num [hopSize] : 0 < hopSize)]

lemma frameCountFrom_zero {L i : ℕ} (h : ¬ ((i : ℤ) < (L : ℤ) - (windowSize : ℤ))) :
    frameCountFrom L i = 0 := by
  unfold frameCountFrom
  rw [if_pos (by omega)]

/-- The frame loop, in closed form: starting at offset `i` it emits exactly
`frameCountFrom L i` frames, the `k`-th taken at offset `i + k * hopSize`. -/
lemma genFrames_eq (audio : List ℝ) : ∀ i : ℕ,
    genFrames audio i =
      (List.range (frameCountFrom audio.length i)).map
        (fun k => spectralFrame (windowedSegment audio (i + k * hopSize))) := by
  intro i
  generalize hm : audio.length - i = m
  induction m using Nat.strong_induction_on generalizing i with
  | _ m ih =>
    rw [genFrames]
    by_cases h : (i : ℤ) < (audio.length : ℤ) - (windowSize : ℤ)
    · rw [dif_pos h]
      have hw : windowSize = 1024 := rfl
      have hh : hopSize = 256 := rfl
      have hlt : audio.length - (i + hopSize) < m := by omega
      rw [ih _ hlt (i + hopSize) rfl, frameCountFrom_step h, List.range_succ_eq_map]
      simp only [List.map_cons, List.map_map, Nat.zero_mul, Nat.add_zero]
      refine congrArg₂ List.cons rfl ?_
      apply List.map_congr_left
      intro k _
      simp only [Function.comp_apply, Nat.succ_eq_add_one]
      congr 1
      ring_nf
    · rw [dif_neg h, frameCountFrom_zero h]
      simp

/-! ## Live path: snapshot slicing and the rolling buffer (`updateFrequencyData`) -/

/-- `analyser.frequencyBinCount` is half the configured FFT size. -/
def frequencyBinCount (fft : ℕ) : ℕ := fft / 2

/-- `normalizedData = Array.from(dataArray).map(value => value / 255)` —
the analyser delivers bytes, one per frequency bin. -/
def normalizedData (dataArray : List ℕ) : List ℚ :=
  dataArray.map fun v : ℕ => (v : ℚ) / 255

/-- `spectrogramSlice = normalizedData.slice(0, Math.floor(bufferLength / 4))`
where `bufferLength = dataArray.length`. -/
def spectrogramSlice (dataArray : List ℕ) : List ℚ :=
  (normalizedData dataArray).take (dataArray.length / 4)

/-- One push into the rolling live buffer:
`ref.push(slice); if (ref.length > 200) ref.shift();`. -/
def pushSnapshot (buf : List (List ℚ)) (s : List ℚ) : List (List ℚ) :=
  if 200 < (buf ++ [s]).length then (buf ++ [s]).drop 1 else buf ++ [s]

/-- Pushing a whole sequence of snapshots into an initially empty buffer. -/
def pushAll (snaps : List (List ℚ)) : List (List ℚ) :=
  snaps.foldl pushSnapshot []

lemma pushAll_eq (l : List (List ℚ)) : pushAll l = l.drop (l.length - 200) := by
  induction l using List.reverseRecOn with
  | nil => rfl
  | append_singleton l a ih =>
    unfold pushAll at ih ⊢
    rw [List.foldl_append, ih]
    simp only [List.foldl_cons, List.foldl_nil]
    unfold pushSnapshot
    by_cases hL : l.length < 200
    · have h0 : l.length - 200 = 0 := by omega
      rw [h0, List.drop_zero]
      rw [if_neg (by simp; omega)]
      have h0' : (l ++ [a]).length - 200 = 0 := by simp; omega
      rw [h0', List.drop_zero]
    · rw [if_pos (by simp; omega)]
      have h1 : (l.drop (l.length - 200) ++ [a]).drop 1
          = (l.drop (l.length - 200)).drop 1 ++ [a] := by
        apply List.drop_append_of_le_length
        simp
        omega
      rw [h1, List.drop_drop]
      have h2 : (l ++ [a]).length - 200 = l.length - 200 + 1 := by simp; omega
      rw [h2]
      rw [List.drop_append_of_le_length (by omega)]

/-! ## Dynamic-range normalizer (`Spectrogram.tsx`, `canvasData`)

The component receives `spectrogramData : number[][]`; after the emptiness
guard it sets `width = spectrogramData.length` and
`height = spectrogramData[0].length`.  Matrix values are modelled as
rationals. -/

/-- `const width = spectrogramData.length`. -/
def width (data : List (List ℚ)) : ℕ := data.length

/-- `const height = spectrogramData[0].length`. -/
def height (data : List (List ℚ)) : ℕ := (data.getD 0 []).length

/-- `spectrogramData[x][y] || 0`: a missing entry (short or absent row) reads
as `0`, exactly like the `|| 0` fallback on an `undefined` access. -/
def cell (data : List (List ℚ)) (x y : ℕ) : ℚ := (data.getD x []).getD y 0

/-- The value-collection double loop `for (x < width) for (y < height)`, in
x-major order, before any filtering. -/
def collected (data : List (List ℚ)) : List ℚ :=
  (List.range (width data)).flatMap fun x =>
    (List.range (height data)).map fun y => cell data x y

/-- `maxValue`: starts at `0` and is raised to any larger value seen. -/
def maxValue (data : List (List ℚ)) : ℚ := (collected data).foldl max 0

/-- `allValues` after `allValues.sort((a, b) => a - b)`: the positive collected
values, in ascending order.  The JS numeric-comparator sort is modelled by an
order-correct sort of the same multiset. -/
def allValues (data : List (List ℚ)) : List ℚ :=
  List.insertionSort (· ≤ ·) ((collected data).filter fun v => decide (0 < v))

/-- `Math.floor(allValues.length * 0.95)`.  `n * 0.95` in exact arithmetic is
`19n/20`; the double rounding of `0.95` (slightly above `19/20`) never moves
the floor for any feasible array length. -/
def idx95 (n : ℕ) : ℕ := 19 * n / 20

/-- `Math.floor(allValues.length * 0.05)` = `⌊n/20⌋`. -/
def idx5 (n : ℕ) : ℕ := n / 20

/-- `const p95 = allValues[Math.floor(allValues.length * 0.95)] || maxValue`.
Every element of `allValues` is positive (truthy), so the `|| maxValue`
fallback fires exactly when the index is out of range, i.e. when no positive
value exists. -/
def p95 (data : List (List ℚ)) : ℚ :=
  (allValues data).getD (idx95 (allValues data).length) (maxValue data)

/-- `const p5 = allValues[Math.floor(allValues.length * 0.05)] || minValue`.
In JS, when `allValues` is empty `minValue` is still `Infinity`, which has no
rational counterpart; we use `0` as the default.  In that case no cell is
positive, and `normalizeValue` never reads `p5` for non-positive values, so
the default never influences an output. -/
def p5 (data : List (List ℚ)) : ℚ :=
  (allValues data).getD (idx5 (allValues data).length) 0

/-- Per-value normalization (`Spectrogram.tsx` lines 70-76):
`rawMagnitude <= 0` yields `0`; otherwise the value is clamped into
`[p5, p95]` and divided by `p95 - p5` — with no division guard.  When
`p95 - p5 = 0` the clamped numerator is also `0` and JS computes `0/0 = NaN`,
modelled as `none`. -/
def normalizeValue (lo hi v : ℚ) : Option ℚ :=
  if v ≤ 0 then some 0
  else if hi - lo = 0 then none
  else some ((max lo (min hi v) - lo) / (hi - lo))

/-- `normalizedMagnitude` for the matrix entry at row `x`, bin `y`. -/
def normalizedAt (data : List (List ℚ)) (x y : ℕ) : Option ℚ :=
  normalizeValue (p5 data) (p95 data) (cell data x y)

/-- `scaledMagnitude = Math.pow(normalizedMagnitude, 0.5)`; a NaN input stays
NaN (`none`). -/
noncomputable def scaledAt (data : List (List ℚ)) (x y : ℕ) : Option ℝ :=
  (normalizedAt data x y).map fun q => Real.sqrt (q : ℝ)

/-! ## Heat-map renderer (`Spectrogram.tsx` lines 81-126) -/

/-- The five-band color mapping from `scaledMagnitude` to `(r, g, b, alpha)`.
Stores are to a `Uint8ClampedArray`, which maps negative and NaN components to
`0`; `Nat.floor` of a real already sends negatives to `0`.  A NaN
`scaledMagnitude` (`none`) fails every `<` comparison and falls through to the
last branch, where `r = 255`, `g = Math.floor(255 - NaN) = NaN` stores as `0`,
`b = 0`: the stored pixel is `(255, 0, 0, 255)`. -/
noncomputable def colorOf (s : Option ℝ) : ℕ × ℕ × ℕ × ℕ :=
  match s with
  | none => (255, 0, 0, 255)
  | some m =>
    if m < 0.01 then (0, 0, ⌊m * 2000⌋₊, 255)
    else if m < 0.25 then (0, 0, ⌊50 + m / 0.25 * 155⌋₊, 255)
    else if m < 0.5 then (0, ⌊(m - 0.25) / 0.25 * 180⌋₊, ⌊205 - (m - 0.25) / 0.25 * 50⌋₊, 255)
    else if m < 0.75 then
      (⌊(m - 0.5) / 0.25 * 255⌋₊, ⌊180 + (m - 0.5) / 0.25 * 75⌋₊,
        ⌊155 - (m - 0.5) / 0.25 * 155⌋₊, 255)
    else (255, ⌊255 - (m - 0.75) / 0.25 * 255⌋₊, 0, 255)

/-- The four stores `imageData.data[index + c] = …` at `index = base`,
modelled on a flat byte buffer `ℕ → ℕ`. -/
def writeRGBA (buf : ℕ → ℕ) (base : ℕ) (c : ℕ × ℕ × ℕ × ℕ) : ℕ → ℕ :=
  fun k =>
    if k = base then c.1
    else if k = base + 1 then c.2.1
    else if k = base + 2 then c.2.2.1
    else if k = base + 3 then c.2.2.2
    else buf k

/-- The inner pixel loop `for (y < height)` for a fixed column `x`:
`index = (y * width + x) * 4`, and the color comes from the flipped read
`spectrogramData[x][height - 1 - y]`. -/
noncomputable def renderColumn (data : List (List ℚ)) (x : ℕ) (buf : ℕ → ℕ) : ℕ → ℕ :=
  (List.range (height data)).foldl
    (fun b y =>
      writeRGBA b ((y * width data + x) * 4) (colorOf (scaledAt data x (height data - 1 - y))))
    buf

/-- The outer pixel loop `for (x < width)`, starting from the zero-initialized
`ImageData` buffer. -/
noncomputable def imageBuffer (data : List (List ℚ)) : ℕ → ℕ :=
  (List.range (width data)).foldl (fun b x => renderColumn data x b) (fun _ => 0)

/-- Reading the four channels of pixel `(x, y)` back from a flat buffer of
row-major stride `w`. -/
def readPixel (buf : ℕ → ℕ) (w x y : ℕ) : ℕ × ℕ × ℕ × ℕ :=
  (buf ((y * w + x) * 4), buf ((y * w + x) * 4 + 1),
    buf ((y * w + x) * 4 + 2), buf ((y * w + x) * 4 + 3))

/-! ## Claim C1 — row count of the offline spectrogram -/

/-- C1 (counterexample): the claim predicts `floor((L-W)/H)+1 = 1` rows for a
waveform of length `L = 1024 = W` (`L ≥ W`), but the strict loop bound
`i < audioData.length - windowSize` produces `0` rows. -/
theorem c1_counterexample :
    windowSize ≤ 1024
      ∧ (generateFullSpectrogram (List.replicate 1024 (0 : ℝ)) 44100).length
          ≠ (1024 - windowSize) / hopSize + 1 := by
  constructor
  · norm_num [windowSize]
  · rw [generateFullSpectrogram, genFrames_eq]
    simp only [List.length_map, List.length_range, List.length_replicate]
    rw [frameCountFrom_zero (by norm_num [windowSize])]
    norm_num [windowSize, hopSize]

/-- C1 (amended): the builder yields zero rows for every waveform of length
`L ≤ W = 1024` (not only `L < W`); for `L > W` it yields exactly
`floor((L - W - 1)/H) + 1` rows (one fewer than the claimed `floor((L-W)/H)+1`
when `H` divides `L - W`), the `k`-th row being the transformed window at
offset `k·H` — so rows appear in increasing frame-offset order. -/
theorem c1_row_count (audio : List ℝ) (sr : ℕ) :
    generateFullSpectrogram audio sr
        = (List.range (numFrames audio.length)).map
            (fun k => spectralFrame (windowedSegment audio (k * hopSize)))
      ∧ (generateFullSpectrogram audio sr).length = numFrames audio.length
      ∧ (audio.length ≤ windowSize → generateFullSpectrogram audio sr = [])
      ∧ (windowSize < audio.length →
          numFrames audio.length = (audio.length - windowSize - 1) / hopSize + 1) := by
  have hmain : generateFullSpectrogram audio sr
      = (List.range (numFrames audio.length)).map
          (fun k => spectralFrame (windowedSegment audio (k * hopSize))) := by
    rw [generateFullSpectrogram, genFrames_eq]
    unfold numFrames
    apply List.map_congr_left
    intro k _
    rw [Nat.zero_add]
  refine ⟨hmain, ?_, ?_, ?_⟩
  · rw [hmain]; simp
  · intro hle
    rw [hmain]
    have h0 : numFrames audio.length = 0 := by
      unfold numFrames frameCountFrom
      rw [if_pos (by omega)]
    rw [h0]
    rfl
  · intro hgt
    unfold numFrames frameCountFrom
    rw [if_neg (by omega), Nat.sub_zero]

/-- Witness for `c1_row_count`: a 1500-sample waveform (`> W`) yields
`floor((1500 - 1024 - 1)/256) + 1 = 2` rows, and a 10-sample waveform yields
none. -/
theorem c1_row_count_witness :
    (generateFullSpectrogram (List.replicate 1500 (0 : ℝ)) 44100).length = numFrames 1500
      ∧ windowSize < 1500
      ∧ numFrames 1500 = (1500 - windowSize - 1) / hopSize + 1
      ∧ (List.replicate 10 (0 : ℝ)).length ≤ windowSize
      ∧ generateFullSpectrogram (List.replicate 10 (0 : ℝ)) 44100 = [] := by
  have h1 := (c1_row_count (List.replicate 1500 (0 : ℝ)) 44100).2.1
  have h2 := (c1_row_count (List.replicate 1500 (0 : ℝ)) 44100).2.2.2
  have h3 := (c1_row_count (List.replicate 10 (0 : ℝ)) 44100).2.2.1
  rw [List.length_replicate] at h1 h2
  refine ⟨h1, by norm_num [windowSize], h2 (by norm_num [windowSize]), ?_, ?_⟩
  · rw [List.length_replicate]
    norm_num [windowSize]
  · exact h3 (by rw [List.length_replicate]; norm_num [windowSize])

/-! ## Claim C3 — per-bin formula and bounds of the frame transform -/

/-- C3: for every windowed frame `x` and bin `f < K = 128`, the produced bin
value is `min(1, 10·sqrt(real² + imag²)/N)` with the claimed DFT sums over
`t ∈ [0, N)`, `N = 1024`; the row has exactly `K` entries, each in `[0, 1]`. -/
theorem c3_frame_transform (x : ℕ → ℝ) (f : Fin fftSize) :
    (spectralFrame x).length = fftSize
      ∧ (spectralFrame x).getD (f : ℕ) 0
          = min 1 (10 * Real.sqrt
              ((∑ t ∈ Finset.range windowSize,
                  x t * Real.cos (-2 * Real.pi * (((f : ℕ) : ℝ) / (fftSize : ℝ)) * (t : ℝ))) ^ 2
                + (∑ t ∈ Finset.range windowSize,
                  x t * Real.sin (-2 * Real.pi * (((f : ℕ) : ℝ) / (fftSize : ℝ)) * (t : ℝ))) ^ 2)
              / (windowSize : ℝ))
      ∧ (∀ v ∈ spectralFrame x, 0 ≤ v ∧ v ≤ 1) := by
  have hlen : (spectralFrame x).length = fftSize := by
    simp [spectralFrame]
  refine ⟨hlen, ?_, ?_⟩
  · have hf : (f : ℕ) < (List.range fftSize).length := by
      simpa using f.isLt
    rw [spectralFrame, List.getD_eq_getElem _ _ (by simpa using f.isLt),
      List.getElem_map, List.getElem_range]
    have harg : dftReal x (f : ℕ) * dftReal x (f : ℕ) + dftImag x (f : ℕ) * dftImag x (f : ℕ)
        = dftReal x (f : ℕ) ^ 2 + dftImag x (f : ℕ) ^ 2 := by ring
    rw [binMagnitude, harg, dftReal, dftImag]
    congr 1
    ring
  · intro v hv
    rw [spectralFrame] at hv
    obtain ⟨g, hg, rfl⟩ := List.mem_map.mp hv
    constructor
    · apply le_min
      · norm_num
      · have h1 : 0 ≤ binMagnitude x g := by
          apply div_nonneg (Real.sqrt_nonneg _)
          norm_num [windowSize]
        positivity
    · exact min_le_left _ _

/-! ## Claim C6 — live snapshot bin count -/

/-- C6 (counterexample): with the configured FFT size 2048 the analyser
delivers `frequencyBinCount = 1024` bytes, but the snapshot actually pushed is
`normalizedData.slice(0, Math.floor(bufferLength / 4))`, which has 256
entries, not 1024. -/
theorem c6_counterexample :
    (spectrogramSlice (List.replicate (frequencyBinCount 2048) 0)).length
      ≠ frequencyBinCount 2048 := by
  unfold spectrogramSlice normalizedData
  rw [List.length_take, List.length_map, List.length_replicate]
  norm_num [frequencyBinCount]

/-- C6 (amended): each snapshot appended to the live rolling buffer has
`floor((FFT-size/2) / 4)` bins — `256` for the configured FFT size of 2048. -/
theorem c6_snapshot_bins (dataArray : List ℕ)
    (h : dataArray.length = frequencyBinCount 2048) :
    (spectrogramSlice dataArray).length = 256 := by
  unfold spectrogramSlice normalizedData
  rw [List.length_take, List.length_map, h]
  norm_num [frequencyBinCount]

/-- Witness for `c6_snapshot_bins` at a concrete 1024-byte analyser frame. -/
theorem c6_snapshot_bins_witness :
    (List.replicate 1024 (0 : ℕ)).length = frequencyBinCount 2048
      ∧ (spectrogramSlice (List.replicate 1024 (0 : ℕ))).length = 256 :=
  ⟨by rw [List.length_replicate]; rfl, c6_snapshot_bins _ (by rw [List.length_replicate]; rfl)⟩

/-! ## Claim C9 — rolling live buffer bound and FIFO eviction -/

/-- C9: after pushing any sequence of `n` snapshots into the empty rolling
buffer, the buffer is exactly the suffix of the `min(n, 200)` most recent
snapshots, in arrival order (so pushing 250 leaves the most recent 200). -/
theorem c9_rolling_buffer (snaps : List (List ℚ)) :
    pushAll snaps = snaps.drop (snaps.length - 200)
      ∧ (pushAll snaps).length = min snaps.length 200 := by
  refine ⟨pushAll_eq snaps, ?_⟩
  rw [pushAll_eq snaps, List.length_drop]
  omega

/-! ## Claim C10 — sample-rate independence of the offline computation -/

/-- C10: `generateFullSpectrogram` never reads its `sampleRate` argument, so
any two sample rates produce identical matrices for the same samples. -/
theorem c10_sampleRate_independent (audio : List ℝ) (sr1 sr2 : ℕ) :
    generateFullSpectrogram audio sr1 = generateFullSpectrogram audio sr2 := rfl

/-! ## Basic facts about `normalizeValue` -/

/-- Whenever the per-value normalization produces a (finite) value, that value
lies in `[0, 1]` — for any percentile bounds whatsoever. -/
lemma normalizeValue_bounds {lo hi v a : ℚ} (h : normalizeValue lo hi v = some a) :
    0 ≤ a ∧ a ≤ 1 := by
  unfold normalizeValue at h
  split_ifs at h with h1 h2
  · cases h
    norm_num
  · cases h
    rcases lt_trichotomy lo hi with hlt | heq | hgt
    · constructor
      · apply div_nonneg
        · rw [sub_nonneg]
          exact le_max_left _ _
        · rw [sub_nonneg]
          exact le_of_lt hlt
      · rw [div_le_one (by rwa [sub_pos])]
        apply sub_le_sub_right
        exact max_le (le_of_lt hlt) (min_le_left _ _)
    · exact absurd (by rw [heq, sub_self]) h2
    · have hmax : max lo (min hi v) = lo :=
        max_eq_left (le_of_lt (lt_of_le_of_lt (min_le_left _ _) hgt))
      rw [hmax, sub_self, zero_div]
      norm_num

lemma normalizeValue_nonpos {lo hi v : ℚ} (h : v ≤ 0) :
    normalizeValue lo hi v = some 0 := by
  unfold normalizeValue
  rw [if_pos h]

/-! ## Claim C2 — the degenerate-range "guard" -/

/-- C2 (counterexample): on the one-cell spectrogram `[[1]]` the percentile
bounds coincide (`p95 = p5 = 1`) and the cell is positive, yet its normalized
value is not `0`: the unguarded division computes `0/0`, i.e. NaN (`none`). -/
theorem c2_counterexample :
    p95 [[(1 : ℚ)]] = p5 [[(1 : ℚ)]] ∧ 0 < cell [[(1 : ℚ)]] 0 0
      ∧ normalizedAt [[(1 : ℚ)]] 0 0 ≠ some 0 := by
  have hp5 : p5 [[(1 : ℚ)]] = 1 := by decide
  have hp95 : p95 [[(1 : ℚ)]] = 1 := by decide
  have hc : cell [[(1 : ℚ)]] 0 0 = 1 := by decide
  have hnone : normalizedAt [[(1 : ℚ)]] 0 0 = none := by
    unfold normalizedAt
    rw [hp5, hp95, hc]
    unfold normalizeValue
    rw [if_neg (by norm_num), if_pos (by norm_num)]
  refine ⟨by rw [hp5, hp95], by rw [hc]; norm_num, by rw [hnone]; intro hcon; cases hcon⟩

/-- C2 (amended): the division at `Spectrogram.tsx:75` is *not* guarded.  When
the computed percentile bounds are equal, every positive value yields
`0/0 = NaN` (a non-finite value, modelled `none`); non-positive values still
normalize to `0`. -/
theorem c2_degenerate_range (data : List (List ℚ)) (h : p95 data = p5 data) (x y : ℕ) :
    (0 < cell data x y → normalizedAt data x y = none)
      ∧ (cell data x y ≤ 0 → normalizedAt data x y = some 0) := by
  constructor
  · intro hv
    unfold normalizedAt normalizeValue
    rw [if_neg (not_le.mpr hv), if_pos (by rw [h, sub_self])]
  · intro hv
    exact normalizeValue_nonpos hv

/-- Witness for `c2_degenerate_range` on the concrete constant spectrogram
`[[1]]`. -/
theorem c2_degenerate_range_witness :
    p95 [[(1 : ℚ)]] = p5 [[(1 : ℚ)]] ∧ 0 < cell [[(1 : ℚ)]] 0 0
      ∧ normalizedAt [[(1 : ℚ)]] 0 0 = none := by
  have hEq : p95 [[(1 : ℚ)]] = p5 [[(1 : ℚ)]] := by decide
  exact ⟨hEq, by decide, (c2_degenerate_range [[(1 : ℚ)]] hEq 0 0).1 (by decide)⟩

/-! ## Claim C4 — range of the normalized spectrogram -/

/-- C4 (counterexample): `[[2]]` is a non-empty spectrogram, but the value at
row 0, bin 0 of its normalized form is NaN (`none`), not a real in `[0, 1]`:
with a single positive value both percentile indices select it, `p5 = p95`,
and the unguarded division yields `0/0`. -/
theorem c4_counterexample :
    ¬ ∃ r : ℝ, scaledAt [[(2 : ℚ)]] 0 0 = some r ∧ 0 ≤ r ∧ r ≤ 1 := by
  have hp5 : p5 [[(2 : ℚ)]] = 2 := by decide
  have hp95 : p95 [[(2 : ℚ)]] = 2 := by decide
  have hc : cell [[(2 : ℚ)]] 0 0 = 2 := by decide
  have hnone : normalizedAt [[(2 : ℚ)]] 0 0 = none := by
    unfold normalizedAt
    rw [hp5, hp95, hc]
    unfold normalizeValue
    rw [if_neg (by norm_num), if_pos (by norm_num)]
  rintro ⟨r, hr, -⟩
  rw [scaledAt, hnone] at hr
  cases hr

/-- C4 (amended): whenever the computed percentile bounds are strictly ordered
(`p5 < p95`), every value of the normalized spectrogram is a real in `[0, 1]`;
and when the input has no positive value, every in-range output value is `0`.
The original claim fails only in the degenerate case `p5 = p95` with a
positive cell, where the output is NaN (see `c4_counterexample`). -/
theorem c4_normalized_range (data : List (List ℚ)) :
    (p5 data < p95 data →
      ∀ x y : ℕ, ∃ r : ℝ, scaledAt data x y = some r ∧ 0 ≤ r ∧ r ≤ 1)
      ∧ ((∀ u ∈ collected data, u ≤ 0) →
        ∀ x y : ℕ, x < width data → y < height data → scaledAt data x y = some 0) := by
  constructor
  · intro hp x y
    obtain ⟨a, ha⟩ : ∃ a, normalizedAt data x y = some a := by
      unfold normalizedAt normalizeValue
      split_ifs with h1 h2
      · exact ⟨0, rfl⟩
      · exact absurd h2 (sub_ne_zero_of_ne (ne_of_gt hp))
      · exact ⟨_, rfl⟩
    obtain ⟨ha0, ha1⟩ := normalizeValue_bounds ha
    refine ⟨Real.sqrt (a : ℝ), ?_, Real.sqrt_nonneg _, ?_⟩
    · rw [scaledAt, ha]
      rfl
    · rw [Real.sqrt_le_one]
      exact_mod_cast ha1
  · intro hnp x y hx hy
    have hmem : cell data x y ∈ collected data := by
      unfold collected
      exact List.mem_flatMap.mpr
        ⟨x, List.mem_range.mpr hx, List.mem_map.mpr ⟨y, List.mem_range.mpr hy, rfl⟩⟩
    have hv : cell data x y ≤ 0 := hnp _ hmem
    rw [scaledAt, normalizedAt, normalizeValue_nonpos hv]
    simp

/-- Witness for `c4_normalized_range`: part one on `[[0, 1, 2]]` (there
`p5 = 1 < 2 = p95`), part two on the all-zero spectrogram `[[0]]`. -/
theorem c4_normalized_range_witness :
    p5 [[(0 : ℚ), 1, 2]] < p95 [[(0 : ℚ), 1, 2]]
      ∧ (∃ r : ℝ, scaledAt [[(0 : ℚ), 1, 2]] 0 1 = some r ∧ 0 ≤ r ∧ r ≤ 1)
      ∧ (∀ u ∈ collected [[(0 : ℚ)]], u ≤ 0)
      ∧ scaledAt [[(0 : ℚ)]] 0 0 = some 0 := by
  have h1 : p5 [[(0 : ℚ), 1, 2]] < p95 [[(0 : ℚ), 1, 2]] := by decide
  have h2 : ∀ u ∈ collected [[(0 : ℚ)]], u ≤ 0 := by decide
  exact ⟨h1, (c4_normalized_range _).1 h1 0 1, h2,
    (c4_normalized_range _).2 h2 0 0 (by decide) (by decide)⟩

/-! ## Reading pixels back from the image buffer (for claim C8) -/

/-- Selecting the `k`-th channel of an RGBA quadruple. -/
def rgbaComp (col : ℕ × ℕ × ℕ × ℕ) (k : ℕ) : ℕ :=
  if k = 0 then col.1 else if k = 1 then col.2.1 else if k = 2 then col.2.2.1 else col.2.2.2

lemma writeRGBA_hit (buf : ℕ → ℕ) (base : ℕ) (col : ℕ × ℕ × ℕ × ℕ) {c : ℕ} (hc : c < 4) :
    writeRGBA buf base col (base + c) = rgbaComp col c := by
  interval_cases c
  · rw [Nat.add_zero]
    unfold writeRGBA rgbaComp
    rw [if_pos rfl]
    rfl
  · unfold writeRGBA rgbaComp
    rw [if_neg (by omega), if_pos rfl]
    rfl
  · unfold writeRGBA rgbaComp
    rw [if_neg (by omega), if_neg (by omega), if_pos rfl]
    rfl
  · unfold writeRGBA rgbaComp
    rw [if_neg (by omega), if_neg (by omega), if_neg (by omega), if_pos rfl]
    rfl

lemma writeRGBA_miss (buf : ℕ → ℕ) (base : ℕ) (col : ℕ × ℕ × ℕ × ℕ) {k : ℕ}
    (h : ∀ c, c < 4 → k ≠ base + c) :
    writeRGBA buf base col k = buf k := by
  unfold writeRGBA
  rw [if_neg (by have := h 0 (by norm_num); omega),
    if_neg (h 1 (by norm_num)), if_neg (h 2 (by norm_num)), if_neg (h 3 (by norm_num))]

/-- Euclidean uniqueness for the `(y * width + x)` encoding of pixel
coordinates. -/
lemma grid_index_inj {w x x0 y y0 : ℕ} (hx : x < w) (hx0 : x0 < w)
    (h : y * w + x = y0 * w + x0) : y = y0 ∧ x = x0 := by
  have hw : 0 < w := lt_of_le_of_lt (Nat.zero_le _) hx
  have hy : y = y0 := by
    have h1 : (w * y + x) / w = y := by
      rw [Nat.mul_add_div hw, Nat.div_eq_of_lt hx, Nat.add_zero]
    have h2 : (w * y0 + x0) / w = y0 := by
      rw [Nat.mul_add_div hw, Nat.div_eq_of_lt hx0, Nat.add_zero]
    rw [← h1, ← h2, Nat.mul_comm w y, Nat.mul_comm w y0, h]
  refine ⟨hy, ?_⟩
  rw [hy] at h
  omega

/-- Distinctness of flat byte addresses of distinct pixels. -/
lemma pixel_index_ne {w x x0 y y0 c c' : ℕ} (hx : x < w) (hx0 : x0 < w)
    (hc : c < 4) (hc' : c' < 4) (hne : x ≠ x0 ∨ y ≠ y0) :
    (y0 * w + x0) * 4 + c ≠ (y * w + x) * 4 + c' := by
  intro he
  have hbase : y0 * w + x0 = y * w + x := by omega
  obtain ⟨hyy, hxx⟩ := grid_index_inj hx0 hx hbase
  rcases hne with h | h
  · exact h (hxx.symm)
  · exact h (hyy.symm)

/-- Reading back through the inner (per-column) render loop: the read at pixel
`(x0, y0)` sees the write of column `xw` at row `y0` exactly when `xw = x0`
and `y0` was visited; any other iteration leaves that address untouched. -/
lemma renderColumn_fold_read (data : List (List ℚ)) (xw x0 y0 c : ℕ)
    (hxw : xw < width data) (hx0 : x0 < width data) (hc : c < 4) :
    ∀ (ys : List ℕ) (buf : ℕ → ℕ),
      (ys.foldl
          (fun b y =>
            writeRGBA b ((y * width data + xw) * 4)
              (colorOf (scaledAt data xw (height data - 1 - y))))
          buf) ((y0 * width data + x0) * 4 + c)
        = if xw = x0 ∧ y0 ∈ ys
            then rgbaComp (colorOf (scaledAt data x0 (height data - 1 - y0))) c
            else buf ((y0 * width data + x0) * 4 + c) := by
  intro ys
  induction ys with
  | nil =>
    intro buf
    rw [List.foldl_nil, if_neg (by simp)]
  | cons y ys ih =>
    intro buf
    rw [List.foldl_cons, ih]
    by_cases h1 : xw = x0 ∧ y0 ∈ ys
    · rw [if_pos h1, if_pos ⟨h1.1, List.mem_cons_of_mem _ h1.2⟩]
    · rw [if_neg h1]
      by_cases h2 : xw = x0 ∧ y = y0
      · obtain ⟨rfl, rfl⟩ := h2
        rw [writeRGBA_hit _ _ _ hc, if_pos ⟨rfl, List.mem_cons_self _ _⟩]
      · have hmiss : ∀ c', c' < 4 →
            (y0 * width data + x0) * 4 + c ≠ (y * width data + xw) * 4 + c' := by
          intro c' hc'
          apply pixel_index_ne hxw hx0 hc hc'
          by_cases hxx : xw = x0
          · exact Or.inr (fun hyy => h2 ⟨hxx, hyy⟩)
          · exact Or.inl hxx
        rw [writeRGBA_miss _ _ _ hmiss]
        by_cases hxx : xw = x0
        · have hy0 : y0 ∉ y :: ys := by
            intro hmem
            rcases List.mem_cons.mp hmem with rfl | hmem'
            · exact h2 ⟨hxx, rfl⟩
            · exact h1 ⟨hxx, hmem'⟩
          rw [if_neg (fun hcon => hy0 hcon.2)]
        · rw [if_neg (fun hcon => hxx hcon.1)]

/-- Reading back through the outer (per-row-of-columns) render loop. -/
lemma imageBuffer_fold_read (data : List (List ℚ)) (x0 y0 c : ℕ)
    (hx0 : x0 < width data) (hy0 : y0 < height data) (hc : c < 4) :
    ∀ (xs : List ℕ) (buf : ℕ → ℕ), (∀ x ∈ xs, x < width data) →
      (xs.foldl (fun b x => renderColumn data x b) buf)
          ((y0 * width data + x0) * 4 + c)
        = if x0 ∈ xs
            then rgbaComp (colorOf (scaledAt data x0 (height data - 1 - y0))) c
            else buf ((y0 * width data + x0) * 4 + c) := by
  intro xs
  induction xs with
  | nil =>
    intro buf _
    rw [List.foldl_nil, if_neg (by simp)]
  | cons x xs ih =>
    intro buf hbound
    rw [List.foldl_cons, ih _ (fun x' hx' => hbound x' (List.mem_cons_of_mem _ hx'))]
    by_cases h1 : x0 ∈ xs
    · rw [if_pos h1, if_pos (List.mem_cons_of_mem _ h1)]
    · rw [if_neg h1]
      rw [renderColumn, renderColumn_fold_read data x x0 y0 c
        (hbound x (List.mem_cons_self _ _)) hx0 hc]
      by_cases hxx : x = x0
      · rw [if_pos ⟨hxx, List.mem_range.mpr hy0⟩, if_pos (hxx ▸ List.mem_cons_self _ _)]
      · rw [if_neg (fun hcon => hxx hcon.1)]
        rw [if_neg (by
          intro hmem
          rcases List.mem_cons.mp hmem with rfl | hmem'
          · exact hxx rfl
          · exact h1 hmem')]

/-- The four channels of pixel `(x0, y0)` of the finished image. -/
lemma imageBuffer_read (data : List (List ℚ)) (x0 y0 c : ℕ)
    (hx0 : x0 < width data) (hy0 : y0 < height data) (hc : c < 4) :
    imageBuffer data ((y0 * width data + x0) * 4 + c)
      = rgbaComp (colorOf (scaledAt data x0 (height data - 1 - y0))) c := by
  rw [imageBuffer, imageBuffer_fold_read data x0 y0 c hx0 hy0 hc _ _
    (fun x hx => List.mem_range.mp hx)]
  rw [if_pos (List.mem_range.mpr hx0)]

lemma rgbaComp_ext (col : ℕ × ℕ × ℕ × ℕ) :
    (rgbaComp col 0, rgbaComp col 1, rgbaComp col 2, rgbaComp col 3) = col := by
  rcases col with ⟨r, g, b, a⟩
  rfl

/-- Assembled pixel read. -/
lemma readPixel_imageBuffer (data : List (List ℚ)) (x0 y0 : ℕ)
    (hx0 : x0 < width data) (hy0 : y0 < height data) :
    readPixel (imageBuffer data) (width data) x0 y0
      = colorOf (scaledAt data x0 (height data - 1 - y0)) := by
  have h0 := imageBuffer_read data x0 y0 0 hx0 hy0 (by norm_num)
  have h1 := imageBuffer_read data x0 y0 1 hx0 hy0 (by norm_num)
  have h2 := imageBuffer_read data x0 y0 2 hx0 hy0 (by norm_num)
  have h3 := imageBuffer_read data x0 y0 3 hx0 hy0 (by norm_num)
  rw [Nat.add_zero] at h0
  unfold readPixel
  rw [h0, h1, h2, h3, rgbaComp_ext]

/-! ## Claim C8 — frequency-axis flip in pixel placement -/

/-- C8: pixel `(x, y)` of the rendered heat map takes its color from the
normalized value at row `x`, bin `height - 1 - y`; in particular pixel row `0`
shows bin `height - 1` and pixel row `height - 1` shows bin `0`. -/
theorem c8_frequency_flip (data : List (List ℚ)) (x y : ℕ)
    (hx : x < width data) (hy : y < height data) :
    readPixel (imageBuffer data) (width data) x y
        = colorOf (scaledAt data x (height data - 1 - y))
      ∧ readPixel (imageBuffer data) (width data) x 0
          = colorOf (scaledAt data x (height data - 1))
      ∧ readPixel (imageBuffer data) (width data) x (height data - 1)
          = colorOf (scaledAt data x 0) := by
  have hpos : 0 < height data := lt_of_le_of_lt (Nat.zero_le _) hy
  refine ⟨readPixel_imageBuffer data x y hx hy, ?_, ?_⟩
  · have h := readPixel_imageBuffer data x 0 hx hpos
    rwa [Nat.sub_zero] at h
  · have h := readPixel_imageBuffer data x (height data - 1) hx (by omega)
    rwa [Nat.sub_self] at h

/-- Witness for `c8_frequency_flip` on the one-pixel spectrogram `[[1]]`. -/
theorem c8_frequency_flip_witness :
    readPixel (imageBuffer [[(1 : ℚ)]]) (width [[(1 : ℚ)]]) 0 0
        = colorOf (scaledAt [[(1 : ℚ)]] 0 (height [[(1 : ℚ)]] - 1 - 0))
      ∧ readPixel (imageBuffer [[(1 : ℚ)]]) (width [[(1 : ℚ)]]) 0 0
          = colorOf (scaledAt [[(1 : ℚ)]] 0 (height [[(1 : ℚ)]] - 1))
      ∧ readPixel (imageBuffer [[(1 : ℚ)]]) (width [[(1 : ℚ)]]) 0 (height [[(1 : ℚ)]] - 1)
          = colorOf (scaledAt [[(1 : ℚ)]] 0 0) :=
  c8_frequency_flip [[(1 : ℚ)]] 0 0 (by decide) (by decide)

/-! ## Order statistics of the positive-value multiset (for claim C7)

Changing one cell of the matrix changes the sorted positive-value list, and
with it both percentile bounds.  The lemmas below characterise a sorted list's
`k`-th element through counting, which is stable under the exchange of one
element. -/

/-- The ascending list of a multiset of values. -/
def sortedVals (M : Multiset ℚ) : List ℚ := Multiset.sort (· ≤ ·) M

/-- The `k`-th order statistic (`0` out of range). -/
def orderStat (M : Multiset ℚ) (k : ℕ) : ℚ := (sortedVals M).getD k 0

/-- How many elements are `≤ t`. -/
def countLE (M : Multiset ℚ) (t : ℚ) : ℕ := Multiset.card (M.filter fun x => x ≤ t)

/-- How many elements are `< t`. -/
def countLT (M : Multiset ℚ) (t : ℚ) : ℕ := Multiset.card (M.filter fun x => x < t)

/-- On a sorted list, a downward-closed predicate holds at index `k` iff the
filtered list keeps at least `k + 1` elements. -/
lemma sorted_getD_count (p : ℚ → Bool) (hp : ∀ a b : ℚ, a ≤ b → p b = true → p a = true) :
    ∀ (l : List ℚ), l.Sorted (· ≤ ·) →
      ∀ k, k < l.length → (p (l.getD k 0) = true ↔ k + 1 ≤ (l.filter p).length) := by
  intro l
  induction l with
  | nil =>
    intro _ k hk
    simp at hk
  | cons a tl ih =>
    intro hsort k hk
    obtain ⟨hhead, htl⟩ := List.sorted_cons.mp hsort
    match k with
    | 0 =>
      rw [List.getD_cons_zero]
      constructor
      · intro hpa
        rw [List.filter_cons_of_pos hpa]
        simp
      · intro hlen
        by_contra hpa
        have hnil : tl.filter p = [] := by
          rw [List.filter_eq_nil_iff]
          intro b hb hpb
          exact (ne_true_of_eq_false (Bool.eq_false_iff.mpr hpa)) (hp a b (hhead b hb) hpb)
        rw [List.filter_cons_of_neg (by rwa [Bool.not_eq_true] at hpa ⊢), hnil] at hlen
        simp at hlen
    | k + 1 =>
      rw [List.getD_cons_succ]
      have hk' : k < tl.length := by
        simpa using hk
      rw [ih htl k hk']
      by_cases hpa : p a = true
      · rw [List.filter_cons_of_pos hpa, List.length_cons]
        omega
      · have hnil : tl.filter p = [] := by
          rw [List.filter_eq_nil_iff]
          intro b hb hpb
          exact hpa (hp a b (hhead b hb) hpb)
        rw [List.filter_cons_of_neg (by rwa [Bool.not_eq_true] at hpa ⊢), hnil]
        simp only [List.length_nil]
        omega

lemma countLE_coe (l : List ℚ) (t : ℚ) :
    countLE (↑l) t = (l.filter fun x => decide (x ≤ t)).length := by
  rw [countLE, Multiset.filter_coe, Multiset.coe_card]

lemma countLT_coe (l : List ℚ) (t : ℚ) :
    countLT (↑l) t = (l.filter fun x => decide (x < t)).length := by
  rw [countLT, Multiset.filter_coe, Multiset.coe_card]

/-- Characterisation: the `k`-th smallest is `≤ t` iff at least `k + 1`
elements are `≤ t`. -/
lemma orderStat_le_iff {M : Multiset ℚ} {k : ℕ} (hk : k < Multiset.card M) (t : ℚ) :
    orderStat M k ≤ t ↔ k + 1 ≤ countLE M t := by
  have hlen : k < (sortedVals M).length := by
    rwa [sortedVals, Multiset.length_sort]
  have hchar := sorted_getD_count (fun x => decide (x ≤ t))
    (by
      intro a b hab hb
      simp only [decide_eq_true_eq] at hb ⊢
      exact le_trans hab hb)
    (sortedVals M) (Multiset.sort_sorted _ _) k hlen
  simp only [decide_eq_true_eq] at hchar
  rw [orderStat, hchar, ← countLE_coe, sortedVals, Multiset.sort_eq]

/-- Characterisation: the `k`-th smallest is `< t` iff at least `k + 1`
elements are `< t`. -/
lemma orderStat_lt_iff {M : Multiset ℚ} {k : ℕ} (hk : k < Multiset.card M) (t : ℚ) :
    orderStat M k < t ↔ k + 1 ≤ countLT M t := by
  have hlen : k < (sortedVals M).length := by
    rwa [sortedVals, Multiset.length_sort]
  have hchar := sorted_getD_count (fun x => decide (x < t))
    (by
      intro a b hab hb
      simp only [decide_eq_true_eq] at hb ⊢
      exact lt_of_le_of_lt hab hb)
    (sortedVals M) (Multiset.sort_sorted _ _) k hlen
  simp only [decide_eq_true_eq] at hchar
  rw [orderStat, hchar, ← countLT_coe, sortedVals, Multiset.sort_eq]

/-- Characterisation: `t` is at most the `k`-th smallest iff fewer than `k + 1`
elements are `< t`. -/
lemma le_orderStat_iff {M : Multiset ℚ} {k : ℕ} (hk : k < Multiset.card M) (t : ℚ) :
    t ≤ orderStat M k ↔ countLT M t ≤ k := by
  rw [← not_lt, orderStat_lt_iff hk t]
  omega

lemma countLE_add (M N : Multiset ℚ) (t : ℚ) :
    countLE (M + N) t = countLE M t + countLE N t := by
  rw [countLE, countLE, countLE, Multiset.filter_add, Multiset.card_add]

lemma countLT_add (M N : Multiset ℚ) (t : ℚ) :
    countLT (M + N) t = countLT M t + countLT N t := by
  rw [countLT, countLT, countLT, Multiset.filter_add, Multiset.card_add]

lemma countLE_singleton (v t : ℚ) :
    countLE ({v} : Multiset ℚ) t = if v ≤ t then 1 else 0 := by
  rw [countLE, Multiset.filter_singleton]
  split_ifs <;> simp

lemma countLT_singleton (v t : ℚ) :
    countLT ({v} : Multiset ℚ) t = if v < t then 1 else 0 := by
  rw [countLT, Multiset.filter_singleton]
  split_ifs <;> simp

/-- Order statistics are ascending in the index. -/
lemma orderStat_mono {M : Multiset ℚ} {j k : ℕ} (hjk : j ≤ k) (hk : k < Multiset.card M) :
    orderStat M j ≤ orderStat M k := by
  have hkl : k < (sortedVals M).length := by
    rwa [sortedVals, Multiset.length_sort]
  have hjl : j < (sortedVals M).length := lt_of_le_of_lt hjk hkl
  rw [orderStat, orderStat, List.getD_eq_getElem _ _ hjl, List.getD_eq_getElem _ _ hkl]
  exact List.Sorted.rel_get_of_le (Multiset.sort_sorted _ _) hjk

/-! ## Exchanging one element under an order statistic -/

/-- Raising one element of the multiset never lowers any order statistic. -/
lemma orderStat_exchange_mono (O : Multiset ℚ) {v v' : ℚ} (hvv : v ≤ v') {k : ℕ}
    (hk : k < Multiset.card O + 1) :
    orderStat (O + {v}) k ≤ orderStat (O + {v'}) k := by
  have hcv : Multiset.card (O + {v}) = Multiset.card O + 1 := by
    rw [Multiset.card_add, Multiset.card_singleton]
  have hcw : Multiset.card (O + {v'}) = Multiset.card O + 1 := by
    rw [Multiset.card_add, Multiset.card_singleton]
  have h1 : k + 1 ≤ countLE (O + {v'}) (orderStat (O + {v'}) k) :=
    (orderStat_le_iff (by omega) _).mp le_rfl
  rw [orderStat_le_iff (by omega)]
  rw [countLE_add, countLE_singleton] at h1 ⊢
  by_cases hv't : v' ≤ orderStat (O + {v'}) k
  · rw [if_pos hv't] at h1
    rw [if_pos (le_trans hvv hv't)]
    exact h1
  · rw [if_neg hv't] at h1
    split_ifs <;> omega

/-- If even the raised element stays strictly below the `k`-th statistic of the
raised multiset, that statistic is unchanged by the exchange. -/
lemma orderStat_exchange_eq_of_lt (O : Multiset ℚ) {v v' : ℚ} (hvv : v ≤ v') {k : ℕ}
    (hk : k < Multiset.card O + 1) (hlt : v' < orderStat (O + {v'}) k) :
    orderStat (O + {v}) k = orderStat (O + {v'}) k := by
  have hcv : Multiset.card (O + {v}) = Multiset.card O + 1 := by
    rw [Multiset.card_add, Multiset.card_singleton]
  have hcw : Multiset.card (O + {v'}) = Multiset.card O + 1 := by
    rw [Multiset.card_add, Multiset.card_singleton]
  refine le_antisymm (orderStat_exchange_mono O hvv hk) ?_
  have h1 : countLT (O + {v'}) (orderStat (O + {v'}) k) ≤ k :=
    (le_orderStat_iff (by omega) _).mp le_rfl
  rw [le_orderStat_iff (by omega)]
  rw [countLT_add, countLT_singleton] at h1 ⊢
  rw [if_pos hlt] at h1
  rw [if_pos (lt_of_le_of_lt hvv hlt)]
  exact h1

/-- If the original element already sits strictly above the `k`-th statistic of
the original multiset, that statistic is unchanged by the exchange. -/
lemma orderStat_exchange_eq_of_gt (O : Multiset ℚ) {v v' : ℚ} (hvv : v ≤ v') {k : ℕ}
    (hk : k < Multiset.card O + 1) (hgt : orderStat (O + {v}) k < v) :
    orderStat (O + {v'}) k = orderStat (O + {v}) k := by
  have hcv : Multiset.card (O + {v}) = Multiset.card O + 1 := by
    rw [Multiset.card_add, Multiset.card_singleton]
  have hcw : Multiset.card (O + {v'}) = Multiset.card O + 1 := by
    rw [Multiset.card_add, Multiset.card_singleton]
  refine le_antisymm ?_ (orderStat_exchange_mono O hvv hk)
  have h1 : k + 1 ≤ countLE (O + {v}) (orderStat (O + {v}) k) :=
    (orderStat_le_iff (by omega) _).mp le_rfl
  rw [orderStat_le_iff (by omega)]
  rw [countLE_add, countLE_singleton] at h1 ⊢
  rw [if_neg (not_le.mpr hgt)] at h1
  split_ifs <;> omega

/-! ## Percentile indices -/

lemma idx95_lt {n : ℕ} (hn : 1 ≤ n) : idx95 n < n := by
  rw [idx95, Nat.div_lt_iff_lt_mul (by norm_num)]
  omega

lemma idx5_le_idx95 (n : ℕ) : idx5 n ≤ idx95 n := by
  rw [idx5, idx95]
  exact Nat.div_le_div_right (by omega)

/-! ## Monotonicity of the per-value normalization -/

/-- With its percentile bounds held fixed, the per-value normalization is
monotone wherever it is defined. -/
lemma normalizeValue_mono_fixed {lo hi v v' a b : ℚ} (hvv : v ≤ v')
    (ha : normalizeValue lo hi v = some a) (hb : normalizeValue lo hi v' = some b) :
    a ≤ b := by
  obtain ⟨ha0, -⟩ := normalizeValue_bounds ha
  obtain ⟨hb0, -⟩ := normalizeValue_bounds hb
  unfold normalizeValue at ha hb
  by_cases hv0 : v ≤ 0
  · rw [if_pos hv0] at ha
    cases ha
    exact hb0
  · have hv'0 : ¬ v' ≤ 0 := fun hc => hv0 (le_trans hvv hc)
    rw [if_neg hv0] at ha
    rw [if_neg hv'0] at hb
    by_cases hd : hi - lo = 0
    · rw [if_pos hd] at ha
      cases ha
    · rw [if_neg hd] at ha hb
      cases ha
      cases hb
      rcases lt_trichotomy lo hi with hlt | heq | hgt
      · rw [div_le_div_iff_of_pos_right (by rw [sub_pos]; exact hlt)]
        apply sub_le_sub_right
        exact max_le_max le_rfl (min_le_min le_rfl hvv)
      · exact absurd (by rw [heq, sub_self]) hd
      · have hm : ∀ u : ℚ, max lo (min hi u) = lo := fun u =>
          max_eq_left (le_of_lt (lt_of_le_of_lt (min_le_left _ _) hgt))
        rw [hm, hm, sub_self, zero_div]

/-- Core of claim C7: raising a positive value, with the rest of the positive
values `O` fixed, never lowers its own normalized output even though both
percentile bounds are recomputed.  Either the bounds are unchanged, or the
output was already pinned at `0` (below `p5`) or moves to `1` (at or above the
new `p95`). -/
lemma own_normalized_mono (O : Multiset ℚ) (v v' : ℚ) (hv : 0 < v) (hv' : 0 < v')
    (hvv : v ≤ v') (a b : ℚ)
    (ha : normalizeValue (orderStat (O + {v}) (idx5 (Multiset.card O + 1)))
        (orderStat (O + {v}) (idx95 (Multiset.card O + 1))) v = some a)
    (hb : normalizeValue (orderStat (O + {v'}) (idx5 (Multiset.card O + 1)))
        (orderStat (O + {v'}) (idx95 (Multiset.card O + 1))) v' = some b) :
    a ≤ b := by
  obtain ⟨ha0, ha1⟩ := normalizeValue_bounds ha
  obtain ⟨hb0, hb1⟩ := normalizeValue_bounds hb
  have hcv : Multiset.card (O + {v}) = Multiset.card O + 1 := by
    rw [Multiset.card_add, Multiset.card_singleton]
  have hcw : Multiset.card (O + {v'}) = Multiset.card O + 1 := by
    rw [Multiset.card_add, Multiset.card_singleton]
  have h95lt : idx95 (Multiset.card O + 1) < Multiset.card O + 1 := idx95_lt (by omega)
  have h5lt : idx5 (Multiset.card O + 1) < Multiset.card O + 1 :=
    lt_of_le_of_lt (idx5_le_idx95 _) h95lt
  have hp5w95w : orderStat (O + {v'}) (idx5 (Multiset.card O + 1))
      ≤ orderStat (O + {v'}) (idx95 (Multiset.card O + 1)) :=
    orderStat_mono (idx5_le_idx95 _) (by omega)
  have hp5v95v : orderStat (O + {v}) (idx5 (Multiset.card O + 1))
      ≤ orderStat (O + {v}) (idx95 (Multiset.card O + 1)) :=
    orderStat_mono (idx5_le_idx95 _) (by omega)
  by_cases hcap : orderStat (O + {v'}) (idx95 (Multiset.card O + 1)) ≤ v'
  · -- the raised value reaches the raised `p95`: its output is exactly 1
    have hbeq : b = 1 := by
      rw [normalizeValue, if_neg (not_le.mpr hv')] at hb
      by_cases hd : orderStat (O + {v'}) (idx95 (Multiset.card O + 1))
          - orderStat (O + {v'}) (idx5 (Multiset.card O + 1)) = 0
      · rw [if_pos hd] at hb
        cases hb
      · rw [if_neg hd] at hb
        cases hb
        rw [min_eq_left hcap, max_eq_right hp5w95w, div_self hd]
    rw [hbeq]
    exact ha1
  · push_neg at hcap
    have h95eq : orderStat (O + {v}) (idx95 (Multiset.card O + 1))
        = orderStat (O + {v'}) (idx95 (Multiset.card O + 1)) :=
      orderStat_exchange_eq_of_lt O hvv h95lt hcap
    by_cases hlow : v ≤ orderStat (O + {v}) (idx5 (Multiset.card O + 1))
    · -- the original value is at or below the original `p5`: its output is 0
      have haeq : a = 0 := by
        rw [normalizeValue, if_neg (not_le.mpr hv)] at ha
        by_cases hd : orderStat (O + {v}) (idx95 (Multiset.card O + 1))
            - orderStat (O + {v}) (idx5 (Multiset.card O + 1)) = 0
        · rw [if_pos hd] at ha
          cases ha
        · rw [if_neg hd] at ha
          cases ha
          rw [min_eq_right (le_trans hlow hp5v95v), max_eq_left hlow, sub_self, zero_div]
      rw [haeq]
      exact hb0
    · push_neg at hlow
      have h5eq : orderStat (O + {v'}) (idx5 (Multiset.card O + 1))
          = orderStat (O + {v}) (idx5 (Multiset.card O + 1)) :=
        orderStat_exchange_eq_of_gt O hvv h5lt hlow
      rw [h5eq, ← h95eq] at hb
      exact normalizeValue_mono_fixed hvv ha hb

/-! ## Updating one spectrogram cell -/

/-- Replace the value at row `i`, bin `j`. -/
def updateCell (data : List (List ℚ)) (i j : ℕ) (v : ℚ) : List (List ℚ) :=
  data.set i ((data.getD i []).set j v)

lemma updateCell_rect (data : List (List ℚ)) {i : ℕ} (j : ℕ) (v : ℚ)
    (hrect : ∀ row ∈ data, row.length = height data) (hi : i < width data) :
    ∀ row ∈ updateCell data i j v, row.length = height data := by
  intro row hmem
  rcases List.mem_or_eq_of_mem_set hmem with hmem' | rfl
  · exact hrect row hmem'
  · rw [List.length_set, List.getD_eq_getElem _ _ hi]
    exact hrect _ (List.getElem_mem hi)

lemma width_updateCell (data : List (List ℚ)) (i j : ℕ) (v : ℚ) :
    width (updateCell data i j v) = width data := by
  rw [width, width, updateCell, List.length_set]

lemma height_updateCell (data : List (List ℚ)) {i : ℕ} (j : ℕ) (v : ℚ)
    (hrect : ∀ row ∈ data, row.length = height data) (hi : i < width data) :
    height (updateCell data i j v) = height data := by
  have hlen : 0 < (updateCell data i j v).length := by
    rw [updateCell, List.length_set]
    exact lt_of_le_of_lt (Nat.zero_le _) hi
  rw [height, List.getD_eq_getElem _ _ hlen]
  exact updateCell_rect data j v hrect hi _ (List.getElem_mem hlen)

lemma cell_updateCell (data : List (List ℚ)) {i j : ℕ} (v : ℚ)
    (hi : i < width data) (hj : j < (data.getD i []).length) :
    cell (updateCell data i j v) i j = v := by
  rw [cell, updateCell]
  rw [List.getD_eq_getElem (data.set i ((data.getD i []).set j v)) []
    (by rw [List.length_set]; exact hi)]
  rw [List.getElem_set_self (by rw [List.length_set]; exact hi)]
  rw [List.getD_eq_getElem _ _ (by rw [List.length_set]; exact hj)]
  rw [List.getElem_set_self (by rw [List.length_set]; exact hj)]

/-! ## The positive-value multiset under a one-cell update -/

lemma multiset_set_exchange (l : List ℚ) {j : ℕ} (v : ℚ) (hj : j < l.length) :
    (↑(l.set j v) : Multiset ℚ) + {l[j]} = (↑l : Multiset ℚ) + {v} := by
  have hset : l.set j v = l.take j ++ v :: l.drop (j + 1) := by
    rw [List.set_eq_take_append_cons_drop, if_pos hj]
  have horig : l = l.take j ++ l[j] :: l.drop (j + 1) := by
    conv_lhs => rw [← List.take_append_drop j l, List.drop_eq_getElem_cons hj]
  rw [hset]
  conv_rhs => rw [horig]
  simp only [← Multiset.coe_add, ← Multiset.cons_coe, ← Multiset.singleton_add]
  abel

lemma multiset_flatten_set (data : List (List ℚ)) (row' : List ℚ) {i : ℕ}
    (hi : i < data.length) :
    (↑((data.set i row').flatten) : Multiset ℚ) + ↑(data[i])
      = (↑(data.flatten) : Multiset ℚ) + ↑row' := by
  have hset : data.set i row' = data.take i ++ row' :: data.drop (i + 1) := by
    rw [List.set_eq_take_append_cons_drop, if_pos hi]
  have horig : data = data.take i ++ data[i] :: data.drop (i + 1) := by
    conv_lhs => rw [← List.take_append_drop i data, List.drop_eq_getElem_cons hi]
  rw [hset]
  conv_rhs => rw [horig]
  rw [List.flatten_append, List.flatten_cons, List.flatten_append, List.flatten_cons]
  simp only [← Multiset.coe_add]
  abel

lemma collected_eq_flatten (data : List (List ℚ))
    (hrect : ∀ row ∈ data, row.length = height data) :
    collected data = data.flatten := by
  rw [collected, List.flatMap_def]
  have hmap : (List.range (width data)).map
      (fun x => (List.range (height data)).map fun y => cell data x y) = data := by
    apply List.ext_getElem
    · rw [List.length_map, List.length_range]
      rfl
    · intro n h1 h2
      rw [List.getElem_map, List.getElem_range]
      apply List.ext_getElem
      · rw [List.length_map, List.length_range]
        exact (hrect _ (List.getElem_mem h2)).symm
      · intro m hm1 hm2
        rw [List.getElem_map, List.getElem_range]
        rw [cell, List.getD_eq_getElem _ _ (show n < data.length from h2),
          List.getD_eq_getElem _ _ hm2]
  rw [hmap]

/-- Updating cell `(i, j)` exchanges exactly one element of the collected
multiset; applying the positivity filter on both sides. -/
lemma positives_updateCell (data : List (List ℚ)) {i j : ℕ} (v : ℚ)
    (hrect : ∀ row ∈ data, row.length = height data)
    (hi : i < width data) (hj : j < height data) :
    Multiset.filter (fun u => 0 < u) (↑(collected (updateCell data i j v)) : Multiset ℚ)
        + Multiset.filter (fun u => 0 < u) ({cell data i j} : Multiset ℚ)
      = Multiset.filter (fun u => 0 < u) (↑(collected data) : Multiset ℚ)
        + Multiset.filter (fun u => 0 < u) ({v} : Multiset ℚ) := by
  have hjrow : j < (data.getD i []).length := by
    rw [List.getD_eq_getElem _ _ hi, hrect _ (List.getElem_mem hi)]
    exact hj
  have hrect' : ∀ row ∈ updateCell data i j v, row.length = height (updateCell data i j v) := by
    intro row hrow
    rw [height_updateCell data j v hrect hi]
    exact updateCell_rect data j v hrect hi row hrow
  have h1 : (↑(collected (updateCell data i j v)) : Multiset ℚ) + {cell data i j}
      = (↑(collected data) : Multiset ℚ) + {v} := by
    rw [collected_eq_flatten _ hrect', collected_eq_flatten _ hrect]
    have hcell : cell data i j = (data.getD i [])[j] := List.getD_eq_getElem _ _ hjrow
    have hrow := multiset_set_exchange (data.getD i []) v hjrow
    have hflat := multiset_flatten_set data ((data.getD i []).set j v) (i := i) hi
    rw [updateCell]
    have hrowvals : (↑(data[i]) : Multiset ℚ) = ↑(data.getD i []) := by
      rw [List.getD_eq_getElem _ _ hi]
    have hcombined :
        (↑((data.set i ((data.getD i []).set j v)).flatten) : Multiset ℚ)
            + {cell data i j} + ↑(data.getD i [])
          = (↑(data.flatten) : Multiset ℚ) + {v} + ↑(data.getD i []) := by
      calc (↑((data.set i ((data.getD i []).set j v)).flatten) : Multiset ℚ)
            + {cell data i j} + ↑(data.getD i [])
          = (↑((data.set i ((data.getD i []).set j v)).flatten) : Multiset ℚ)
            + ↑(data[i]) + {cell data i j} := by
            rw [hrowvals]
            abel
        _ = (↑(data.flatten) : Multiset ℚ) + ↑((data.getD i []).set j v)
            + {cell data i j} := by rw [hflat]
        _ = (↑(data.flatten) : Multiset ℚ)
            + (↑((data.getD i []).set j v) + {(data.getD i [])[j]}) := by
            rw [hcell]
            abel
        _ = (↑(data.flatten) : Multiset ℚ) + (↑(data.getD i []) + {v}) := by rw [hrow]
        _ = (↑(data.flatten) : Multiset ℚ) + {v} + ↑(data.getD i []) := by abel
    exact add_right_cancel hcombined
  have h2 := congrArg (Multiset.filter fun u => 0 < u) h1
  rw [Multiset.filter_add, Multiset.filter_add] at h2
  exact h2

/-- The JS numeric sort produces the unique ascending arrangement of the
positive-value multiset. -/
lemma length_sortedVals (M : Multiset ℚ) : (sortedVals M).length = Multiset.card M :=
  Multiset.length_sort _

lemma allValues_eq_sort (data : List (List ℚ)) :
    allValues data
      = sortedVals (Multiset.filter (fun u => 0 < u) (↑(collected data) : Multiset ℚ)) := by
  rw [Multiset.filter_coe]
  unfold allValues sortedVals
  apply List.eq_of_perm_of_sorted (r := (· ≤ ·))
  · exact (List.perm_insertionSort _ _).trans
      (Multiset.coe_eq_coe.mp (Multiset.sort_eq _ _).symm)
  · exact List.sorted_insertionSort _ _
  · exact Multiset.sort_sorted _ _

/-- For a matrix whose positive values form `M` with `M.card ≥ 1`, both
percentile bounds are order statistics of `M`. -/
lemma p5_eq_orderStat (data : List (List ℚ)) (M : Multiset ℚ)
    (hM : Multiset.filter (fun u => 0 < u) (↑(collected data) : Multiset ℚ) = M) :
    p5 data = orderStat M (idx5 (Multiset.card M)) := by
  rw [p5, allValues_eq_sort, hM, length_sortedVals]
  rfl

lemma p95_eq_orderStat (data : List (List ℚ)) (M : Multiset ℚ)
    (hM : Multiset.filter (fun u => 0 < u) (↑(collected data) : Multiset ℚ) = M)
    (hcard : 1 ≤ Multiset.card M) :
    p95 data = orderStat M (idx95 (Multiset.card M)) := by
  have hidx : idx95 (Multiset.card M) < (sortedVals M).length := by
    rw [length_sortedVals]
    exact idx95_lt hcard
  rw [p95, allValues_eq_sort, hM, length_sortedVals, orderStat]
  rw [List.getD_eq_getElem _ _ hidx, List.getD_eq_getElem _ _ hidx]

/-! ## Claim C7 — monotonicity of the percentile normalization -/

/-- C7: for every rectangular spectrogram and every in-range position `(i, j)`,
raising the magnitude at that position (all other cells fixed) never lowers
that position's own normalized output, whenever both outputs are finite — even
though the percentile bounds `p5`/`p95` are recomputed from the changed data.
(When the raised value is clamped at the recomputed `p95` the output is pinned
at 1, which still never decreases.) -/
theorem c7_percentile_monotonic (data : List (List ℚ)) (i j : ℕ) (v v' : ℚ)
    (hrect : ∀ row ∈ data, row.length = height data)
    (hi : i < width data) (hj : j < height data) (hvv : v ≤ v') (a b : ℚ)
    (ha : normalizedAt (updateCell data i j v) i j = some a)
    (hb : normalizedAt (updateCell data i j v') i j = some b) :
    a ≤ b := by
  have hjrow : j < (data.getD i []).length := by
    rw [List.getD_eq_getElem _ _ hi, hrect _ (List.getElem_mem hi)]
    exact hj
  rw [normalizedAt, cell_updateCell data v hi hjrow] at ha
  rw [normalizedAt, cell_updateCell data v' hi hjrow] at hb
  by_cases hv0 : v ≤ 0
  · rw [normalizeValue_nonpos hv0] at ha
    cases ha
    exact (normalizeValue_bounds hb).1
  · have hv : 0 < v := not_le.mp hv0
    have hv' : 0 < v' := lt_of_lt_of_le hv hvv
    -- the positive values of the two updated matrices differ in one element
    have e1 := positives_updateCell data v hrect hi hj
    have e2 := positives_updateCell data v' hrect hi hj
    have e0 := positives_updateCell data 0 hrect hi hj
    rw [Multiset.filter_singleton (a := (0 : ℚ)), if_neg (lt_irrefl 0),
      Multiset.empty_eq_zero, add_zero] at e0
    rw [Multiset.filter_singleton (a := v), if_pos hv] at e1
    rw [Multiset.filter_singleton (a := v'), if_pos hv'] at e2
    have hFv : Multiset.filter (fun u => 0 < u)
        (↑(collected (updateCell data i j v)) : Multiset ℚ)
        = Multiset.filter (fun u => 0 < u)
            (↑(collected (updateCell data i j 0)) : Multiset ℚ) + {v} := by
      apply add_right_cancel
        (b := Multiset.filter (fun u => 0 < u) ({cell data i j} : Multiset ℚ))
      rw [e1, ← e0]
      abel
    have hFw : Multiset.filter (fun u => 0 < u)
        (↑(collected (updateCell data i j v')) : Multiset ℚ)
        = Multiset.filter (fun u => 0 < u)
            (↑(collected (updateCell data i j 0)) : Multiset ℚ) + {v'} := by
      apply add_right_cancel
        (b := Multiset.filter (fun u => 0 < u) ({cell data i j} : Multiset ℚ))
      rw [e2, ← e0]
      abel
    have hcardv : Multiset.card (Multiset.filter (fun u => 0 < u)
        (↑(collected (updateCell data i j 0)) : Multiset ℚ) + {v})
        = Multiset.card (Multiset.filter (fun u => 0 < u)
            (↑(collected (updateCell data i j 0)) : Multiset ℚ)) + 1 := by
      rw [Multiset.card_add, Multiset.card_singleton]
    have hcardw : Multiset.card (Multiset.filter (fun u => 0 < u)
        (↑(collected (updateCell data i j 0)) : Multiset ℚ) + {v'})
        = Multiset.card (Multiset.filter (fun u => 0 < u)
            (↑(collected (updateCell data i j 0)) : Multiset ℚ)) + 1 := by
      rw [Multiset.card_add, Multiset.card_singleton]
    rw [p5_eq_orderStat _ _ hFv, p95_eq_orderStat _ _ hFv (by omega), hcardv] at ha
    rw [p5_eq_orderStat _ _ hFw, p95_eq_orderStat _ _ hFw (by omega), hcardw] at hb
    exact own_normalized_mono _ v v' hv hv' hvv a b ha hb

/-- Witness for `c7_percentile_monotonic`: in `[[0, 1, _, 3, 4]]`, raising the
third bin from 2 to 3 moves its normalized value from `1/3` to `2/3`. -/
theorem c7_percentile_monotonic_witness :
    (2 : ℚ) ≤ 3
      ∧ normalizedAt (updateCell [[(0 : ℚ), 1, 5, 3, 4]] 0 2 2) 0 2 = some (1 / 3)
      ∧ normalizedAt (updateCell [[(0 : ℚ), 1, 5, 3, 4]] 0 2 3) 0 2 = some (2 / 3)
      ∧ (1 / 3 : ℚ) ≤ 2 / 3 := by
  have hupd2 : updateCell [[(0 : ℚ), 1, 5, 3, 4]] 0 2 2 = [[(0 : ℚ), 1, 2, 3, 4]] := by
    decide
  have hupd3 : updateCell [[(0 : ℚ), 1, 5, 3, 4]] 0 2 3 = [[(0 : ℚ), 1, 3, 3, 4]] := by
    decide
  have ha : normalizedAt (updateCell [[(0 : ℚ), 1, 5, 3, 4]] 0 2 2) 0 2 = some (1 / 3) := by
    rw [hupd2, normalizedAt]
    have hp5 : p5 [[(0 : ℚ), 1, 2, 3, 4]] = 1 := by decide
    have hp95 : p95 [[(0 : ℚ), 1, 2, 3, 4]] = 4 := by decide
    have hc : cell [[(0 : ℚ), 1, 2, 3, 4]] 0 2 = 2 := by decide
    rw [hp5, hp95, hc, normalizeValue]
    rw [if_neg (by norm_num), if_neg (by norm_num)]
    norm_num
  have hb : normalizedAt (updateCell [[(0 : ℚ), 1, 5, 3, 4]] 0 2 3) 0 2 = some (2 / 3) := by
    rw [hupd3, normalizedAt]
    have hp5 : p5 [[(0 : ℚ), 1, 3, 3, 4]] = 1 := by decide
    have hp95 : p95 [[(0 : ℚ), 1, 3, 3, 4]] = 4 := by decide
    have hc : cell [[(0 : ℚ), 1, 3, 3, 4]] 0 2 = 3 := by decide
    rw [hp5, hp95, hc, normalizeValue]
    rw [if_neg (by norm_num), if_neg (by norm_num)]
    norm_num
  refine ⟨by norm_num, ha, hb, ?_⟩
  exact c7_percentile_monotonic [[(0 : ℚ), 1, 5, 3, 4]] 0 2 2 3
    (by decide) (by decide) (by decide) (by norm_num) (1 / 3) (2 / 3) ha hb

end VocalVisualizer
